import Mathlib

/-!
# DNSProxyCommand — verification of the server/client core

A shallow embedding of the Go sources of `dnsproxycommand`:

* `internal/server/conn.go` — the session ("conn") table, idle pruning;
* `internal/server/newconn.go` — the new-connection handler;
* `internal/server/forward.go` — the forward (client→upstream) handler;
* `internal/server/reverse.go` — the reverse (upstream→client) handler;
* `internal/server/server.go` — the dispatcher `handlePacket`;
* `internal/client/client.go` — the client pumps (poll backoff, buffers);
* the base32/base64 codecs used (`encoding/base32`, `encoding/base64`
  with `NoPadding` / `RawStdEncoding`).

Go byte slices and strings are modelled as `List Nat` of byte values;
`time.Time` instants as `Nat` nanosecond counts (the Go zero `time.Time`
is the least instant, modelled as `0`); network and stdio I/O as oracle
arguments giving each attempt's outcome.
-/

namespace DPC

/-- Bytes / strings: lists of byte values. -/
abbrev Bytes := List Nat

/-! ## Bit-level codec model (`encoding/base32`, `encoding/base64`)

Go's unpadded base-N encodings concatenate the input bytes' bits
(most-significant bit first), zero-pad on the right to a multiple of the
group width (5 for base32, 6 for base64), and map each group to an
alphabet character.  Decoding maps characters back to groups,
concatenates the bits and keeps the complete bytes (`DecodedLen` =
`len*bits/8`); an input character outside the alphabet is an error. -/

/-- The low `w` bits of `n`, least-significant first. -/
def natToBitsLE : Nat → Nat → List Bool
  | 0, _ => []
  | w + 1, n => decide (n % 2 = 1) :: natToBitsLE w (n / 2)

/-- Read back a least-significant-first bit list as a `Nat`. -/
def bitsFromLE : List Bool → Nat
  | [] => 0
  | b :: l => (if b then 1 else 0) + 2 * bitsFromLE l

/-- The `w`-bit big-endian (MSB-first) rendering of `n`, as used by the
wire encodings. -/
def natToBits (w n : Nat) : List Bool := (natToBitsLE w n).reverse

/-- Read an MSB-first bit list back as a `Nat`. -/
def bitsToNat (l : List Bool) : Nat := bitsFromLE l.reverse

theorem length_natToBitsLE (w n : Nat) : (natToBitsLE w n).length = w := by
  induction w generalizing n with
  | zero => rfl
  | succ w ih => simp [natToBitsLE, ih]

theorem length_natToBits (w n : Nat) : (natToBits w n).length = w := by
  simp [natToBits, length_natToBitsLE]

theorem bitsFromLE_lt (l : List Bool) : bitsFromLE l < 2 ^ l.length := by
  induction l with
  | nil => simp [bitsFromLE]
  | cons b l ih =>
      simp only [bitsFromLE, List.length_cons, pow_succ]
      cases b <;> simp <;> omega

theorem bitsToNat_lt (l : List Bool) : bitsToNat l < 2 ^ l.length := by
  have := bitsFromLE_lt l.reverse
  simpa [bitsToNat] using this

theorem natToBitsLE_bitsFromLE (l : List Bool) :
    natToBitsLE l.length (bitsFromLE l) = l := by
  induction l with
  | nil => rfl
  | cons b l ih =>
      have hmod : ((if b then 1 else 0) + 2 * bitsFromLE l) % 2
          = if b then 1 else 0 := by
        cases b <;> simp [Nat.add_mul_mod_self_left]
      have hdiv : ((if b then 1 else 0) + 2 * bitsFromLE l) / 2
          = bitsFromLE l := by
        cases b <;> omega
      simp only [bitsFromLE, List.length_cons, natToBitsLE, hmod, hdiv, ih]
      cases b <;> simp

theorem natToBits_bitsToNat (l : List Bool) (w : Nat) (hw : l.length = w) :
    natToBits w (bitsToNat l) = l := by
  subst hw
  have hlen : l.reverse.length = l.length := l.length_reverse
  simp only [natToBits, bitsToNat]
  rw [← hlen, natToBitsLE_bitsFromLE, List.reverse_reverse]

theorem bitsFromLE_natToBitsLE (w n : Nat) :
    bitsFromLE (natToBitsLE w n) = n % 2 ^ w := by
  induction w generalizing n with
  | zero => simp [natToBitsLE, bitsFromLE, Nat.mod_one]
  | succ w ih =>
      simp only [natToBitsLE, bitsFromLE, ih]
      have h2 : (2 : Nat) ∣ 2 ^ (w + 1) := dvd_pow_self 2 (Nat.succ_ne_zero w)
      have hm : n % 2 ^ (w + 1) % 2 = n % 2 := Nat.mod_mod_of_dvd n h2
      have hmul : 2 * 2 ^ w = 2 ^ (w + 1) := by ring
      have hd : n / 2 % 2 ^ w = n % 2 ^ (w + 1) / 2 := by
        rw [← hmul, Nat.mod_mul_right_div_self]
      rw [hd]
      rcases Nat.mod_two_eq_zero_or_one n with h | h <;> rw [h] <;> simp <;> omega

theorem bitsToNat_natToBits (w n : Nat) :
    bitsToNat (natToBits w n) = n % 2 ^ w := by
  simp [bitsToNat, natToBits, List.reverse_reverse, bitsFromLE_natToBitsLE]

/-- Right-pad a bit list with zero bits to length `k` (no-op when the
list is already at least `k` long). -/
def padTo (k : Nat) (l : List Bool) : List Bool :=
  l ++ List.replicate (k - l.length) false

/-- Fuel-indexed worker for `chunkBits`: the fuel is an upper bound on
the list length, making the recursion structural (so it evaluates
inside the kernel). -/
def chunkBitsGo (k : Nat) : Nat → List Bool → List Nat
  | 0, _ => []
  | _ + 1, [] => []
  | fuel + 1, b :: rest =>
      bitsToNat (padTo k ((b :: rest).take k))
        :: chunkBitsGo k fuel (rest.drop (k - 1))

/-- Split a bit list into `k`-bit groups (MSB-first), zero-padding the
final partial group on the right, and read each group as a value — the
group extraction of Go's unpadded base-2^k encoders. -/
def chunkBits (k : Nat) (l : List Bool) : List Nat := chunkBitsGo k l.length l

theorem chunkBitsGo_fuel (k : Nat) : ∀ (f1 : Nat) (l : List Bool) (f2 : Nat),
    l.length ≤ f1 → l.length ≤ f2 → chunkBitsGo k f1 l = chunkBitsGo k f2 l := by
  intro f1
  induction f1 with
  | zero =>
      intro l f2 h1 h2
      have h0 : l = [] := List.eq_nil_of_length_eq_zero (Nat.le_zero.mp h1)
      subst h0
      cases f2 <;> rfl
  | succ f1 ih =>
      intro l f2 h1 h2
      match l with
      | [] => cases f2 <;> rfl
      | b :: rest =>
          cases f2 with
          | zero => simp at h2
          | succ f2 =>
              simp only [chunkBitsGo]
              congr 1
              apply ih
              · simp only [List.length_drop]
                simp only [List.length_cons] at h1
                omega
              · simp only [List.length_drop]
                simp only [List.length_cons] at h2
                omega

theorem chunkBits_nil (k : Nat) : chunkBits k [] = [] := rfl

theorem chunkBits_cons (k : Nat) (b : Bool) (rest : List Bool) :
    chunkBits k (b :: rest)
      = bitsToNat (padTo k ((b :: rest).take k))
        :: chunkBits k (rest.drop (k - 1)) := by
  simp only [chunkBits, List.length_cons, chunkBitsGo]
  congr 1
  apply chunkBitsGo_fuel
  · simp only [List.length_drop]
    omega
  · exact le_rfl

theorem padTo_length (k : Nat) (l : List Bool) (h : l.length ≤ k) :
    (padTo k l).length = k := by
  simp [padTo]
  omega

theorem chunkBits_eq (k : Nat) (hk : 0 < k) (b : Bool) (rest : List Bool) :
    chunkBits k (b :: rest)
      = bitsToNat (padTo k ((b :: rest).take k)) :: chunkBits k ((b :: rest).drop k) := by
  have hdrop : (b :: rest).drop k = rest.drop (k - 1) := by
    obtain ⟨j, rfl⟩ : ∃ j, k = j + 1 := ⟨k - 1, by omega⟩
    simp [List.drop_succ_cons]
  rw [hdrop]
  exact chunkBits_cons k b rest

theorem chunkBits_mem_lt (k : Nat) :
    ∀ (n : Nat) (l : List Bool), l.length ≤ n →
      ∀ v ∈ chunkBits k l, v < 2 ^ k := by
  intro n
  induction n with
  | zero =>
      intro l hl v hv
      have h0 : l = [] := List.eq_nil_of_length_eq_zero (Nat.le_zero.mp hl)
      subst h0
      simp [chunkBits_nil] at hv
  | succ n ih =>
      intro l hl v hv
      match l with
      | [] => simp [chunkBits_nil] at hv
      | b :: rest =>
          rw [chunkBits_cons] at hv
          simp only [List.mem_cons] at hv
          rcases hv with hv | hv
          · subst hv
            have htk : ((b :: rest).take k).length ≤ k := by
              simp [List.length_take]
            have hpl : (padTo k ((b :: rest).take k)).length = k :=
              padTo_length k _ htk
            have := bitsToNat_lt (padTo k ((b :: rest).take k))
            rwa [hpl] at this
          · exact ih (rest.drop (k - 1))
              (by simp only [List.length_drop]
                  simp only [List.length_cons] at hl
                  omega) v hv

theorem flatMap_chunkBits (k : Nat) (hk : 0 < k) :
    ∀ (n : Nat) (l : List Bool), l.length ≤ n →
      (chunkBits k l).flatMap (natToBits k)
        = l ++ List.replicate ((k - l.length % k) % k) false := by
  intro n
  induction n with
  | zero =>
      intro l hl
      have h0 : l = [] := List.eq_nil_of_length_eq_zero (Nat.le_zero.mp hl)
      subst h0
      simp [chunkBits_nil, Nat.mod_self]
  | succ n ih =>
      intro l hl
      match l with
      | [] => simp [chunkBits_nil, Nat.mod_self]
      | b :: rest =>
          rw [chunkBits_eq k hk b rest, List.flatMap_cons]
          have htk : ((b :: rest).take k).length ≤ k := by
            simp [List.length_take]
          have hnb : natToBits k (bitsToNat (padTo k ((b :: rest).take k)))
              = padTo k ((b :: rest).take k) :=
            natToBits_bitsToNat _ k (padTo_length k _ htk)
          rw [hnb]
          rcases Nat.lt_or_ge (b :: rest).length k with hm | hm
          · -- final partial group
            have htake : (b :: rest).take k = b :: rest :=
              List.take_of_length_le (Nat.le_of_lt hm)
            have hdropn : (b :: rest).drop k = [] :=
              List.drop_eq_nil_of_le (Nat.le_of_lt hm)
            rw [htake, hdropn]
            simp only [chunkBits_nil, List.flatMap_nil, List.append_nil, padTo]
            have hmm : (b :: rest).length % k = (b :: rest).length :=
              Nat.mod_eq_of_lt hm
            rw [hmm]
            have hlt : k - (b :: rest).length < k := by
              simp only [List.length_cons]
              omega
            rw [Nat.mod_eq_of_lt hlt]
          · -- full group, recurse on the rest
            have hrec := ih ((b :: rest).drop k)
              (by simp only [List.length_drop]
                  simp only [List.length_cons] at hl ⊢
                  omega)
            rw [hrec]
            have hpt : padTo k ((b :: rest).take k) = (b :: rest).take k := by
              have hmin : k ⊓ (b :: rest).length = k := Nat.min_eq_left hm
              simp only [List.length_cons] at hmin
              simp [padTo, List.length_take, hmin]
            rw [hpt, List.length_drop]
            have hmod : ((b :: rest).length - k) % k = (b :: rest).length % k :=
              (Nat.mod_eq_sub_mod hm).symm
            rw [hmod, ← List.append_assoc, List.take_append_drop]

theorem length_chunkBits (k : Nat) (hk : 0 < k) :
    ∀ (n : Nat) (l : List Bool), l.length ≤ n →
      (chunkBits k l).length = (l.length + k - 1) / k := by
  intro n
  induction n with
  | zero =>
      intro l hl
      have h0 : l = [] := List.eq_nil_of_length_eq_zero (Nat.le_zero.mp hl)
      subst h0
      simp [chunkBits_nil, Nat.div_eq_of_lt (by omega : k - 1 < k)]
  | succ n ih =>
      intro l hl
      match l with
      | [] => simp [chunkBits_nil, Nat.div_eq_of_lt (by omega : k - 1 < k)]
      | b :: rest =>
          rw [chunkBits_eq k hk b rest]
          simp only [List.length_cons]
          rcases Nat.lt_or_ge (b :: rest).length k with hm | hm
          · have hdropn : (b :: rest).drop k = [] :=
              List.drop_eq_nil_of_le (Nat.le_of_lt hm)
            rw [hdropn]
            simp only [chunkBits_nil, List.length_cons, List.length_nil]
            simp only [List.length_cons] at hm
            have h3 : rest.length + 1 + k - 1 = rest.length + k := by omega
            rw [h3, Nat.add_div_right _ hk,
              Nat.div_eq_of_lt (by omega : rest.length < k)]
          · have hrec := ih ((b :: rest).drop k)
              (by simp only [List.length_drop]
                  simp only [List.length_cons] at hl ⊢
                  omega)
            rw [List.length_drop] at hrec
            simp only [List.length_cons] at hrec hm
            rw [hrec]
            have h1 : rest.length + 1 - k + k - 1 = rest.length := by omega
            have h2 : rest.length + 1 + k - 1 = rest.length + k := by omega
            rw [h1, h2, Nat.add_div_right _ hk]

theorem chunkBits_eq_ne (k : Nat) (hk : 0 < k) (l : List Bool) (hl : l ≠ []) :
    chunkBits k l
      = bitsToNat (padTo k (l.take k)) :: chunkBits k (l.drop k) := by
  match l with
  | b :: rest => exact chunkBits_eq k hk b rest

theorem chunkBits_flatMap_natToBits (k : Nat) (hk : 0 < k) (p : List Nat) :
    chunkBits k (p.flatMap (natToBits k)) = p.map (· % 2 ^ k) := by
  induction p with
  | nil => simp [chunkBits_nil]
  | cons b p ih =>
      rw [List.flatMap_cons]
      have hlen := length_natToBits k b
      have hne : natToBits k b ++ p.flatMap (natToBits k) ≠ [] := by
        intro h
        have hl := congrArg List.length h
        simp only [List.length_append, hlen, List.length_nil] at hl
        omega
      have htake : (natToBits k b ++ p.flatMap (natToBits k)).take k
          = natToBits k b := List.take_left' hlen
      have hdrop : (natToBits k b ++ p.flatMap (natToBits k)).drop k
          = p.flatMap (natToBits k) := List.drop_left' hlen
      rw [chunkBits_eq_ne k hk _ hne, htake, hdrop, ih]
      have hpad : padTo k (natToBits k b) = natToBits k b := by
        simp [padTo, hlen]
      rw [hpad, bitsToNat_natToBits]
      simp

/-- `List.flatMap` over fixed-width renderings has length `w * p.length`. -/
theorem length_flatMap_natToBits (w : Nat) (p : List Nat) :
    (p.flatMap (natToBits w)).length = w * p.length := by
  induction p with
  | nil => simp
  | cons b p ih =>
      simp [List.flatMap_cons, length_natToBits, ih, Nat.mul_succ]
      ring

/-- A byte string as a bit string, MSB first — how Go's base-2^k encoders
consume their input. -/
def bytesToBits (p : Bytes) : List Bool := p.flatMap (natToBits 8)

/-- The standard base32 alphabet `ABCDEFGHIJKLMNOPQRSTUVWXYZ234567`
(byte values), used by `base32.StdEncoding`. -/
def b32alphabet : List Nat :=
  [65, 66, 67, 68, 69, 70, 71, 72, 73, 74, 75, 76, 77, 78, 79, 80, 81,
   82, 83, 84, 85, 86, 87, 88, 89, 90, 50, 51, 52, 53, 54, 55]

/-- The standard base64 alphabet
`A`–`Z`, `a`–`z`, `0`–`9`, `+`, `/` (byte values), used by
`base64.RawStdEncoding`. -/
def b64alphabet : List Nat :=
  [65, 66, 67, 68, 69, 70, 71, 72, 73, 74, 75, 76, 77, 78, 79, 80, 81,
   82, 83, 84, 85, 86, 87, 88, 89, 90,
   97, 98, 99, 100, 101, 102, 103, 104, 105, 106, 107, 108, 109, 110,
   111, 112, 113, 114, 115, 116, 117, 118, 119, 120, 121, 122,
   48, 49, 50, 51, 52, 53, 54, 55, 56, 57, 43, 47]

/-- Unpadded base-2^k encode against an alphabet: 5 bits per character
for base32, 6 for base64. -/
def encodeBaseK (k : Nat) (alpha : List Nat) (p : Bytes) : Bytes :=
  (chunkBits k (bytesToBits p)).map (fun v => alpha.getD v 0)

/-- Position of character `c` in an alphabet — Go's `decodeMap` lookup,
`none` standing for the `0xFF` "invalid character" entry. -/
def lookupIdx (c : Nat) : List Nat → Option Nat
  | [] => none
  | a :: l => if a = c then some 0 else (lookupIdx c l).map (· + 1)

/-- Map every character of an encoded string through the decode map,
failing (as Go's decoders do, with `CorruptInputError`) on a character
outside the alphabet. -/
def decodeVals (alpha : List Nat) : Bytes → Option (List Nat)
  | [] => some []
  | c :: s =>
      match lookupIdx c alpha, decodeVals alpha s with
      | some v, some vs => some (v :: vs)
      | _, _ => none

/-- Unpadded base-2^k decode: decode-map each character, concatenate the
k-bit groups and keep the `len*k/8` complete bytes (`DecodedLen`). -/
def decodeBaseK (k : Nat) (alpha : List Nat) (s : Bytes) : Option Bytes :=
  (decodeVals alpha s).map fun vals =>
    chunkBits 8 ((vals.flatMap (natToBits k)).take (8 * (s.length * k / 8)))

/-- `enc` of `client.go` / the encoding inverted by `dec` of `forward.go`:
`base32.StdEncoding.WithPadding(base32.NoPadding).EncodeToString`. -/
def base32Encode (p : Bytes) : Bytes := encodeBaseK 5 b32alphabet p

/-- `dec` of `forward.go`:
`base32.StdEncoding.WithPadding(base32.NoPadding).DecodeString`. -/
def base32Decode (s : Bytes) : Option Bytes := decodeBaseK 5 b32alphabet s

/-- `base64.RawStdEncoding.EncodeToString` as used by `handlePacket` in
`server.go` to encode replies. -/
def base64Encode (p : Bytes) : Bytes := encodeBaseK 6 b64alphabet p

/-- `dec` of `client.go`: `base64.RawStdEncoding.DecodeString`. -/
def base64Decode (s : Bytes) : Option Bytes := decodeBaseK 6 b64alphabet s

/-- `strings.ToUpper` on ASCII byte strings, as applied by
`handleForward` before base32-decoding. -/
def toUpperGo (s : Bytes) : Bytes :=
  s.map fun c => if 97 ≤ c ∧ c ≤ 122 then c - 32 else c

theorem lookupIdx_b32 : ∀ v, v < 32 →
    lookupIdx (b32alphabet.getD v 0) b32alphabet = some v := by decide

theorem lookupIdx_b64 : ∀ v, v < 64 →
    lookupIdx (b64alphabet.getD v 0) b64alphabet = some v := by decide

theorem b32_not_lower : ∀ v, v < 32 →
    ¬(97 ≤ b32alphabet.getD v 0 ∧ b32alphabet.getD v 0 ≤ 122) := by decide

theorem decodeVals_encode (alpha : List Nat) (vals : List Nat)
    (h : ∀ v ∈ vals, lookupIdx (alpha.getD v 0) alpha = some v) :
    decodeVals alpha (vals.map (fun v => alpha.getD v 0)) = some vals := by
  induction vals with
  | nil => rfl
  | cons v vs ih =>
      have hv := h v (List.mem_cons_self v vs)
      have hvs := ih fun w hw => h w (List.mem_cons_of_mem v hw)
      simp only [List.map_cons, decodeVals, hv, hvs]

/-- Generic roundtrip for the unpadded base-2^k codec model, `k ∈ {5,6}`
instantiated below. -/
theorem decodeBaseK_encodeBaseK (k : Nat) (hk : 0 < k)
    (alpha : List Nat)
    (halpha : ∀ v, v < 2 ^ k → lookupIdx (alpha.getD v 0) alpha = some v)
    (hT : ∀ m : Nat, 8 * ((m * 8 + k - 1) / k * k / 8) = 8 * m)
    (p : Bytes) (hp : ∀ b ∈ p, b < 256) :
    decodeBaseK k alpha (encodeBaseK k alpha p) = some p := by
  have hbits : (bytesToBits p).length = 8 * p.length :=
    length_flatMap_natToBits 8 p
  have hvals_lt : ∀ v ∈ chunkBits k (bytesToBits p), v < 2 ^ k :=
    chunkBits_mem_lt k (bytesToBits p).length (bytesToBits p) le_rfl
  have hdv : decodeVals alpha (encodeBaseK k alpha p)
      = some (chunkBits k (bytesToBits p)) :=
    decodeVals_encode alpha _ fun v hv => halpha v (hvals_lt v hv)
  have hlenc : (encodeBaseK k alpha p).length
      = ((bytesToBits p).length + k - 1) / k := by
    simp only [encodeBaseK, List.length_map]
    exact length_chunkBits k hk (bytesToBits p).length (bytesToBits p) le_rfl
  simp only [decodeBaseK, hdv, Option.map_some']
  congr 1
  have hflat : (chunkBits k (bytesToBits p)).flatMap (natToBits k)
      = bytesToBits p
        ++ List.replicate ((k - (bytesToBits p).length % k) % k) false :=
    flatMap_chunkBits k hk (bytesToBits p).length (bytesToBits p) le_rfl
  have hTlen : 8 * ((encodeBaseK k alpha p).length * k / 8) = 8 * p.length := by
    rw [hlenc, hbits]
    have := hT p.length
    calc 8 * ((8 * p.length + k - 1) / k * k / 8)
        = 8 * ((p.length * 8 + k - 1) / k * k / 8) := by ring_nf
      _ = 8 * p.length := hT p.length
  rw [hflat, hTlen, ← hbits, List.take_left' rfl]
  have h8 : chunkBits 8 (bytesToBits p) = p.map (· % 2 ^ 8) :=
    chunkBits_flatMap_natToBits 8 (by omega) p
  rw [bytesToBits] at h8 ⊢
  rw [h8]
  have : ∀ b ∈ p, b % 2 ^ 8 = b := fun b hb => Nat.mod_eq_of_lt (hp b hb)
  calc p.map (· % 2 ^ 8) = p.map id := List.map_congr_left this
    _ = p := List.map_id p

theorem base32_roundtrip (p : Bytes) (hp : ∀ b ∈ p, b < 256) :
    base32Decode (toUpperGo (base32Encode p)) = some p := by
  have hfix : toUpperGo (base32Encode p) = base32Encode p := by
    simp only [toUpperGo, base32Encode, encodeBaseK, List.map_map]
    apply List.map_congr_left
    intro v hv
    have hlt : v < 2 ^ 5 :=
      chunkBits_mem_lt 5 (bytesToBits p).length (bytesToBits p) le_rfl v hv
    have := b32_not_lower v hlt
    simp only [Function.comp_apply]
    rw [if_neg this]
  rw [hfix]
  exact decodeBaseK_encodeBaseK 5 (by omega) b32alphabet
    lookupIdx_b32 (fun m => by omega) p hp

theorem base64_roundtrip (p : Bytes) (hp : ∀ b ∈ p, b < 256) :
    base64Decode (base64Encode p) = some p :=
  decodeBaseK_encodeBaseK 6 (by omega) b64alphabet
    lookupIdx_b64 (fun m => by omega) p hp

/-! ## String helpers (Go `strings` package, ASCII byte strings) -/

/-- A Lean string literal as a byte list (used only for concrete test
inputs; all inputs in play are ASCII). -/
def strBytes (s : String) : Bytes := s.toList.map Char.toNat

/-- `strings.ToLower` on ASCII byte strings. -/
def toLowerGo (s : Bytes) : Bytes :=
  s.map fun c => if 65 ≤ c ∧ c ≤ 90 then c + 32 else c

/-- `strings.HasSuffix`: byte-for-byte comparison of the trailing
`len(suffix)` bytes. -/
def hasSuffixGo (s suffix : Bytes) : Bool :=
  decide (suffix.length ≤ s.length)
    && decide (s.drop (s.length - suffix.length) = suffix)

/-- `strings.TrimSuffix`. -/
def trimSuffixGo (s suffix : Bytes) : Bytes :=
  if hasSuffixGo s suffix then s.take (s.length - suffix.length) else s

/-- `strings.Split(s, ".")`: always returns at least one (possibly
empty) field. -/
def splitOnDot : Bytes → List Bytes
  | [] => [[]]
  | c :: rest =>
      if c = 46 then [] :: splitOnDot rest
      else
        match splitOnDot rest with
        | [] => [[c]]
        | w :: ws => (c :: w) :: ws

theorem splitOnDot_ne_nil (s : Bytes) : splitOnDot s ≠ [] := by
  match s with
  | [] => simp [splitOnDot]
  | c :: rest =>
      simp only [splitOnDot]
      split
      · simp
      · match h : splitOnDot rest with
        | [] => simp
        | w :: ws => simp

/-! ## Number parsing (Go `strconv`) -/

/-- One digit for `strconv.ParseUint(s, 36, 64)`: `0`–`9`, `a`–`z`,
`A`–`Z`. -/
def digitVal36 (c : Nat) : Option Nat :=
  if 48 ≤ c ∧ c ≤ 57 then some (c - 48)
  else if 97 ≤ c ∧ c ≤ 122 then some (c - 87)
  else if 65 ≤ c ∧ c ≤ 90 then some (c - 55)
  else none

/-- `strconv.ParseUint(s, 36, 64)`: empty strings, invalid digits and
values not fitting 64 bits are errors. -/
def parseBase36 (s : Bytes) : Option Nat :=
  if s = [] then none
  else
    (s.foldl (fun acc c => acc.bind fun a =>
      (digitVal36 c).map fun d => a * 36 + d) (some 0)).bind
      fun v => if v < 2 ^ 64 then some v else none

/-- `strconv.ParseInt(s, 10, 64)`: optional sign, decimal digits,
64-bit signed range check. -/
def parseDec (s : Bytes) : Option Int :=
  let digits (t : Bytes) : Option Nat :=
    if t = [] then none
    else t.foldl (fun acc c => acc.bind fun a =>
      if 48 ≤ c ∧ c ≤ 57 then some (a * 10 + (c - 48)) else none) (some 0)
  match s with
  | 45 :: t => (digits t).bind fun v =>
      if (v : Int) ≤ 2 ^ 63 then some (-(v : Int)) else none
  | 43 :: t => (digits t).bind fun v =>
      if (v : Int) < 2 ^ 63 then some (v : Int) else none
  | t => (digits t).bind fun v =>
      if (v : Int) < 2 ^ 63 then some (v : Int) else none

/-- `strconv.FormatUint(n, 36)`: lowercase base-36 digits. -/
def formatBase36 (n : Nat) : Bytes :=
  let digit (d : Nat) : Nat := if d < 10 then 48 + d else 87 + d
  if _h : n < 36 then [digit n]
  else formatBase36 (n / 36) ++ [digit (n % 36)]
termination_by n
decreasing_by
  exact Nat.div_lt_self (by omega) (by omega)

/-! ## Session table (`conn.go`)

The upstream TCP socket is kept outside the model: each handler takes
the outcome of its single upstream I/O attempt as an oracle argument,
and closes of upstream sockets are recorded in `closed`. -/

/-- `conn` of `conn.go`.  `last` is the Go zero `time.Time` (modelled
`0`) until the first `updateLast`. -/
structure Conn where
  start : Nat
  last : Nat
  nextFwd : Nat
  nextRev : Nat
deriving Repr, DecidableEq

/-- The `conns` map (id string ↦ conn) plus the set of ids whose
upstream socket `closeConn` has closed. -/
structure Table where
  conns : List (Bytes × Conn)
  closed : List Bytes
deriving Repr, DecidableEq

/-- `getConn`. -/
def getConn (t : List (Bytes × Conn)) (id : Bytes) : Option Conn :=
  (t.find? fun e => decide (e.1 = id)).map Prod.snd

/-- Write back a mutation of the conn pointed to by `id` (Go mutates
through the `*conn` pointer; the table maps ids to pointers). -/
def setConn (t : List (Bytes × Conn)) (id : Bytes) (c : Conn) :
    List (Bytes × Conn) :=
  t.map fun e => if e.1 = id then (id, c) else e

/-- `deleteConn`: remove the entry if present and close its upstream
(in the background); a no-op when the id is absent. -/
def deleteConn (tb : Table) (id : Bytes) : Table :=
  match getConn tb.conns id with
  | none => tb
  | some _ =>
      { conns := tb.conns.filter fun e => ¬ e.1 = id
        closed := tb.closed ++ [id] }

/-- `newConn`: dial upstream (outcome `dialOk`); on success allocate
the next base-36 id, insert a fresh conn and return the id.  The new
conn's `last` field is never assigned, so it keeps the zero time. -/
def newConn (now : Nat) (tb : Table) (nextID : Nat) (dialOk : Bool) :
    Table × Nat × Option Bytes :=
  if dialOk then
    let id := formatBase36 nextID
    ({ tb with conns := tb.conns ++
        [(id, { start := now, last := 0, nextFwd := 0, nextRev := 0 })] },
      nextID + 1, some id)
  else (tb, nextID, none)

/-- `pruneConnsSince`: one sweep; every conn whose `last` is strictly
before the previous sweep's start time is removed and its upstream
closed. -/
def pruneConnsSince (last : Nat) (tb : Table) : Table :=
  { conns := tb.conns.filter fun e => ¬ e.2.last < last
    closed := tb.closed ++ (tb.conns.filter fun e => e.2.last < last).map (·.1) }

/-! ## Handlers (`newconn.go`, `forward.go`, `reverse.go`)

Each handler returns Go's `([]byte, error)` pair, collapsed to three
cases, plus the updated state and a trace of the observable actions it
performed, in program order. -/

/-- A handler's `([]byte, error)` result: non-nil error / nil bytes and
nil error ("no reply, no error") / a (possibly empty) byte reply. -/
inductive HRes where
  | err
  | noReply
  | reply (b : Bytes)
deriving Repr, DecidableEq

/-- Observable actions of a handler, in program order. -/
inductive Ev where
  | updLast                              -- `c.updateLast()`
  | ioWrite (id : Bytes) (cn : Nat) (b : Bytes)  -- `c.c.Write(b)`
  | ioRead (id : Bytes) (cn : Nat)       -- `c.c.Read(buf)`
  | setDeadline                          -- `c.c.SetReadDeadline(...)`
  | delConn (id : Bytes)                 -- `deleteConn(id)`
deriving Repr, DecidableEq

/-- Outcome of the upstream `Write` in `handleForward`. -/
inductive WOutcome where
  | ok
  | errW
deriving Repr, DecidableEq

/-- Outcome of one upstream `Read`: the bytes read (`n = b.length`)
and the error class returned alongside them. -/
inductive ReadOutcome where
  | ok (b : Bytes)        -- nil error
  | timeout (b : Bytes)   -- a deadline-timeout error
  | fail (b : Bytes)      -- any other non-nil error
deriving Repr, DecidableEq

/-- Outcome of the `SetReadDeadline` + `Read` pair in `handleReverse`. -/
inductive RevIO where
  | deadlineErr           -- `SetReadDeadline` itself failed
  | read (o : ReadOutcome)
deriving Repr, DecidableEq

/-- `maxTSOff` of `newconn.go`: 24h in nanoseconds. -/
def maxTSOff : Nat := 86400000000000

/-- Result of `handleNewConn`: updated seen-timestamp cache, updated
table, next id counter, handler result, and whether upstream was
dialed. -/
structure NewConnRes where
  seenTS : List Bytes
  tb : Table
  nextID : Nat
  res : HRes
  dialed : Bool
deriving Repr, DecidableEq

/-- `handleNewConn`: parse the decimal timestamp, require it within
±24h of the wall clock, silently suppress replays via the seen-timestamp
cache, else record the timestamp and dial a new conn. -/
def handleNewConn (now : Nat) (seenTS : List Bytes) (tb : Table)
    (nextID : Nat) (l : Bytes) (dialOk : Bool) : NewConnRes :=
  match parseDec l with
  | none => ⟨seenTS, tb, nextID, .err, false⟩
  | some ts =>
      if maxTSOff < (ts - (now : Int)).natAbs then
        ⟨seenTS, tb, nextID, .err, false⟩
      else if l ∈ seenTS then
        ⟨seenTS, tb, nextID, .noReply, false⟩
      else
        let seenTS' := l :: seenTS
        match newConn now tb nextID dialOk with
        | (tb', nextID', some id) => ⟨seenTS', tb', nextID', .reply id, true⟩
        | (tb', nextID', none) => ⟨seenTS', tb', nextID', .err, true⟩

/-- `handleForward`: parse the base-36 counter, uppercase and
base32-decode the payload, look the conn up, gate on `nextFwd`, then
write upstream (deleting the conn when the write fails). -/
def handleForward (now : Nat) (tb : Table) (ctr payload id : Bytes)
    (w : WOutcome) : Table × HRes × List Ev :=
  match parseBase36 ctr with
  | none => (tb, .err, [])
  | some cn =>
      match base32Decode (toUpperGo payload) with
      | none => (tb, .err, [])
      | some b =>
          match getConn tb.conns id with
          | none => (tb, .err, [])
          | some c =>
              if cn ≠ c.nextFwd then (tb, .noReply, [])
              else
                let c1 : Conn :=
                  { c with nextFwd := c.nextFwd + 1, last := now }
                let tb1 : Table := { tb with conns := setConn tb.conns id c1 }
                match w with
                | .errW =>
                    (deleteConn tb1 id, .err,
                      [.updLast, .ioWrite id cn b, .delConn id])
                | .ok =>
                    (tb1, .reply [],
                      [.updLast, .ioWrite id cn b, .updLast])

/-- `handleReverse`: parse the base-36 counter, look the conn up, gate
on `nextRev`, set the 10ms read deadline (deleting the conn when that
fails), read up to 189 bytes and classify the outcome.  A read that
returns `n = 0` with a non-timeout error surfaces the error but does
not delete the conn. -/
def handleReverse (now : Nat) (tb : Table) (ctr id : Bytes)
    (io : RevIO) : Table × HRes × List Ev :=
  match parseBase36 ctr with
  | none => (tb, .err, [])
  | some cn =>
      match getConn tb.conns id with
      | none => (tb, .err, [])
      | some c =>
          if cn ≠ c.nextRev then (tb, .noReply, [])
          else
            let c1 : Conn := { c with nextRev := c.nextRev + 1 }
            let tb1 : Table := { tb with conns := setConn tb.conns id c1 }
            match io with
            | .deadlineErr =>
                (deleteConn tb1 id, .err, [.setDeadline, .delConn id])
            | .read o =>
                let c2 : Conn := { c1 with last := now }
                let tb2 : Table := { tb with conns := setConn tb.conns id c2 }
                let evs : List Ev :=
                  [.setDeadline, .updLast, .ioRead id cn, .updLast]
                match o with
                | .ok b =>
                    if b ≠ [] then (tb2, .reply b, evs)
                    else (tb2, .reply [], evs)
                | .timeout b =>
                    if b ≠ [] then (tb2, .reply b, evs)
                    else (tb2, .reply [], evs)
                | .fail b =>
                    if b ≠ [] then (tb2, .reply b, evs)
                    else (tb2, .err, evs)

/-! ## Dispatcher (`server.go` `handlePacket`)

Modelled from the point where the question name `qn` (with its trailing
dot, as produced by `dnsmessage.Name.String()`) is checked against the
configured `domainName` (itself of the form `".domain."`).  The earlier
DNS-message sanity checks (unpack failure, not exactly one TXT
question, response flag set) all end in the same "log and drop, no
reply" outcome as a failed suffix check.  The three per-class handlers
are abstracted as a function from the label list to their result. -/

/-- What `handlePacket` does with a packet. -/
inductive PktOut where
  | dropped                 -- returned before the reply `defer` was set up
  | panicked                -- the `unpossible number of labels` panic
  | nxdomain                -- `RCode` = NameError, no answers
  | answer (txt : Bytes)    -- `RCode` = Success, one TXT string
deriving Repr, DecidableEq

/-- Result of dispatching one packet. -/
structure PktRes where
  out : PktOut
  cache : List (Bytes × Bytes)
  handlerCalled : Bool
  cacheConsulted : Bool
deriving Repr, DecidableEq

/-- `ansCache.Get`. -/
def cacheGet (cache : List (Bytes × Bytes)) (k : Bytes) : Option Bytes :=
  (cache.find? fun e => decide (e.1 = k)).map Prod.snd

/-- The tail of `handlePacket` after the cache check: invoke the
handler, turn its result into a reply (errors and nil byte slices both
become NXDOMAIN) and, for a two-label query that produced a reply,
insert the base64-encoded reply into the answer cache. -/
def dispatchHandle (qn : Bytes) (labels : List Bytes)
    (cache : List (Bytes × Bytes)) (handle : List Bytes → HRes)
    (consulted : Bool) : PktRes :=
  match handle labels with
  | .err => ⟨.nxdomain, cache, true, consulted⟩
  | .noReply => ⟨.nxdomain, cache, true, consulted⟩
  | .reply rb =>
      let r := base64Encode rb
      if labels.length = 2 then ⟨.answer r, (qn, r) :: cache, true, consulted⟩
      else ⟨.answer r, cache, true, consulted⟩

/-- `handlePacket` from the parent-domain suffix check on: check the
byte-exact suffix, strip it, lowercase, split on dots, drop on a bad
label count, consult the answer cache for two-label queries only, and
otherwise dispatch to the handler. -/
def handlePacketName (domainName qn0 : Bytes)
    (cache : List (Bytes × Bytes)) (handle : List Bytes → HRes) : PktRes :=
  if ¬ hasSuffixGo qn0 domainName then ⟨.dropped, cache, false, false⟩
  else
    let qn := toLowerGo (trimSuffixGo qn0 domainName)
    let labels := splitOnDot qn
    if labels.length = 0 then ⟨.panicked, cache, false, false⟩
    else if 3 < labels.length then ⟨.dropped, cache, false, false⟩
    else if labels.length = 2 then
      match cacheGet cache qn with
      | some ca => ⟨.answer ca, cache, false, true⟩
      | none => dispatchHandle qn labels cache handle true
    else dispatchHandle qn labels cache handle false

/-! ## Client (`client.go`) -/

/-- `rBufLen`: the stdin read buffer length of `proxyForward`. -/
def rBufLen : Nat := 39

/-- `maxLabelLen`: the maximum length of a DNS label. -/
def maxLabelLen : Nat := 63

/-- `pollMin`: `time.Nanosecond`. -/
def pollMin : Nat := 1

/-- The `client` struct literal in `Client` assigns only `domain` and
`pollMax`, so `pollCur` starts at the Go zero value, `0`. -/
def clientInitPollCur : Nat := 0

/-- The empty-reply branch of `proxyBack`: grow the current poll
interval by `pollIncFactor = 1.5` (a float64 multiply whose result is
truncated back to integer nanoseconds — exact `cur*3/2` division for
the magnitudes in play), cap it at `pollMax`, then sleep
`rand.Int63n(int64(pollCur))` nanoseconds.  `rand.Int63n` panics when
its argument is not positive; `none` models that panic.  The value
carried by `some` is the new `pollCur`, the exclusive upper bound of
the uniform random sleep. -/
def pollStepEmpty (cur max : Nat) : Option Nat :=
  let next0 := cur * 3 / 2
  let next := if next0 > max then max else next0
  if next = 0 then none else some next

/-- The non-empty-reply branch of `proxyBack`: `c.pollCur = pollMin`. -/
def pollReset : Nat := pollMin

/-! ## Session-table lemmas -/

theorem getConn_setConn_self (t : List (Bytes × Conn)) (id : Bytes)
    (c c' : Conn) (h : getConn t id = some c) :
    getConn (setConn t id c') id = some c' := by
  induction t with
  | nil => simp [getConn] at h
  | cons e t ih =>
      by_cases he : e.1 = id
      · simp [getConn, setConn, he]
      · simp only [getConn, setConn, List.map_cons, if_neg he] at h ⊢
        rw [List.find?_cons_of_neg _ (by simpa using he)] at h
        rw [List.find?_cons_of_neg _ (by simpa using he)]
        exact ih h

theorem getConn_setConn_ne (t : List (Bytes × Conn)) (id id' : Bytes)
    (c' : Conn) (h : id ≠ id') :
    getConn (setConn t id' c') id = getConn t id := by
  induction t with
  | nil => rfl
  | cons e t ih =>
      by_cases he : e.1 = id'
      · simp only [getConn, setConn, List.map_cons, if_pos he]
        rw [List.find?_cons_of_neg _ (by simpa using (Ne.symm h)),
          List.find?_cons_of_neg _ (by simp [he, Ne.symm h])]
        exact ih
      · simp only [getConn, setConn, List.map_cons, if_neg he]
        by_cases hp : e.1 = id
        · rw [List.find?_cons_of_pos _ (by simpa using hp),
            List.find?_cons_of_pos _ (by simpa using hp)]
        · rw [List.find?_cons_of_neg _ (by simpa using hp),
            List.find?_cons_of_neg _ (by simpa using hp)]
          exact ih

theorem find?_filter_of_imp {α : Type} (p q : α → Bool) (l : List α)
    (h : ∀ a, p a = true → q a = true) :
    (l.filter q).find? p = l.find? p := by
  induction l with
  | nil => rfl
  | cons a l ih =>
      by_cases hq : q a = true
      · rw [List.filter_cons_of_pos hq]
        by_cases hp : p a = true
        · rw [List.find?_cons_of_pos _ hp, List.find?_cons_of_pos _ hp]
        · rw [List.find?_cons_of_neg _ (by simpa using hp),
            List.find?_cons_of_neg _ (by simpa using hp)]
          exact ih
      · have hp : ¬ p a = true := fun hpa => hq (h a hpa)
        rw [List.filter_cons_of_neg (by simpa using hq),
          List.find?_cons_of_neg _ (by simpa using hp)]
        exact ih

theorem getConn_deleteConn_self (tb : Table) (id : Bytes) :
    getConn (deleteConn tb id).conns id = none := by
  unfold deleteConn
  match hg : getConn tb.conns id with
  | none => exact hg
  | some c =>
      simp only [getConn, Option.map_eq_none']
      apply List.find?_eq_none.mpr
      intro e he
      have := List.of_mem_filter he
      simp only [decide_not] at this
      simpa using this

theorem getConn_deleteConn_ne (tb : Table) (id id' : Bytes) (h : id ≠ id') :
    getConn (deleteConn tb id').conns id = getConn tb.conns id := by
  unfold deleteConn
  match hg : getConn tb.conns id' with
  | none => rfl
  | some c =>
      simp only [getConn]
      rw [find?_filter_of_imp]
      intro e he
      have h1 : e.1 = id := by simpa using he
      simp only [decide_not, Bool.not_eq_eq_eq_not, Bool.not_true,
        decide_eq_false_iff_not]
      intro he'
      exact h (h1 ▸ he' ▸ rfl)

/-! ## Derived codec facts -/

/-- The ceiling division `⌈a / b⌉` used by the spec's
`ceil(N*8/5)` bound. -/
def ceilDiv (a b : Nat) : Nat := (a + b - 1) / b

theorem length_base32Encode (p : Bytes) :
    (base32Encode p).length = ceilDiv (p.length * 8) 5 := by
  simp only [base32Encode, encodeBaseK, List.length_map]
  rw [length_chunkBits 5 (by omega) (bytesToBits p).length _ le_rfl]
  rw [bytesToBits, length_flatMap_natToBits]
  simp only [ceilDiv]
  omega

/-! ## Claim theorems -/

/-- C9: for every byte string `p` of length at most 39, decoding the
unpadded base32 encoding of `p` (after uppercasing, as `handleForward`
does) yields `p`; and for every byte string `q` of length at most 189,
decoding the unpadded standard-alphabet base64 encoding of `q` yields
`q`. -/
theorem claim_C9 :
    (∀ p : Bytes, p.length ≤ 39 → (∀ b ∈ p, b < 256) →
      base32Decode (toUpperGo (base32Encode p)) = some p)
    ∧ (∀ q : Bytes, q.length ≤ 189 → (∀ b ∈ q, b < 256) →
      base64Decode (base64Encode q) = some q) :=
  ⟨fun p _ hp => base32_roundtrip p hp,
   fun q _ hq => base64_roundtrip q hq⟩

/-- Witness for C9 at the concrete payloads `hello` and `world`. -/
theorem claim_C9_witness :
    base32Decode (toUpperGo (base32Encode (strBytes "hello")))
      = some (strBytes "hello")
    ∧ base64Decode (base64Encode (strBytes "world"))
      = some (strBytes "world") :=
  ⟨claim_C9.1 (strBytes "hello") (by decide) (by decide),
   claim_C9.2 (strBytes "world") (by decide) (by decide)⟩

/-- C7: the client's per-query forward window is exactly `rBufLen = 39`
raw bytes: 39 is the largest `N` with `ceil(N*8/5) ≤ 63`, so the
unpadded base32 encoding of any chunk read into the 39-byte stdin
buffer (a `Read` returns at most the buffer's length) fits in one
63-octet DNS label. -/
theorem claim_C7 :
    rBufLen = 39
    ∧ ceilDiv (39 * 8) 5 ≤ maxLabelLen
    ∧ (∀ N : Nat, 39 < N → maxLabelLen < ceilDiv (N * 8) 5)
    ∧ (∀ chunk : Bytes, chunk.length ≤ rBufLen →
        (base32Encode chunk).length ≤ maxLabelLen) := by
  refine ⟨rfl, by decide, fun N hN => ?_, fun chunk h => ?_⟩
  · simp only [maxLabelLen, ceilDiv]
    omega
  · rw [length_base32Encode]
    simp only [rBufLen] at h
    simp only [maxLabelLen, ceilDiv]
    omega

/-- Witness for C7 at `N = 40` and a 39-byte chunk. -/
theorem claim_C7_witness :
    maxLabelLen < ceilDiv (40 * 8) 5
    ∧ (base32Encode (List.replicate 39 0)).length ≤ maxLabelLen :=
  ⟨claim_C7.2.2.1 40 (by decide),
   claim_C7.2.2.2 (List.replicate 39 0) (by decide)⟩

/-- C8 (code bug): the client's poll interval starts at the Go zero
value `0`, not at `pollMin`; on the very first empty reply `proxyBack`
computes `next = min(0 * 1.5, pollMax) = 0` and calls
`rand.Int63n(0)`, which panics (modelled as `none`), instead of
sleeping a uniform duration in `[0, next_interval)`.  `5000000000` is
the default `-poll-max` of 5s from `dnsproxycommand.go`. -/
theorem claim_C8 :
    clientInitPollCur = 0
    ∧ clientInitPollCur < pollMin
    ∧ pollStepEmpty clientInitPollCur 5000000000 = none := by
  exact ⟨rfl, by decide, rfl⟩

/-- C10: a session created by `newConn` has its `last` field left at
the Go zero time (only `updateLast`, called from the forward/reverse
handlers, ever sets it), so a prune sweep whose previous-sweep marker
is any real (positive) instant removes every session whose `last` is
still zero — no matter how recently it was created — and closes its
upstream. -/
theorem claim_C10 (now : Nat) (tb : Table) (nextID : Nat)
    (hfresh : getConn tb.conns (formatBase36 nextID) = none) :
    (∃ c : Conn,
      getConn (newConn now tb nextID true).1.conns (formatBase36 nextID)
          = some c
        ∧ c.last = 0 ∧ c.start = now)
    ∧ (∀ (tb' : Table) (m : Nat) (id : Bytes) (c : Conn), 0 < m →
        (∀ e ∈ tb'.conns, e.1 = id → e.2.last = 0) →
        getConn tb'.conns id = some c →
        getConn (pruneConnsSince m tb').conns id = none
        ∧ id ∈ (pruneConnsSince m tb').closed) := by
  constructor
  · refine ⟨{ start := now, last := 0, nextFwd := 0, nextRev := 0 }, ?_, rfl, rfl⟩
    simp only [newConn, if_true]
    simp only [getConn] at hfresh ⊢
    rw [List.find?_append]
    have hf : List.find? (fun e => decide (e.1 = formatBase36 nextID))
        tb.conns = none := by
      rcases h : List.find? (fun e => decide (e.1 = formatBase36 nextID))
          tb.conns with _ | e
      · exact h
      · rw [h] at hfresh
        simp at hfresh
    rw [hf, Option.none_or, List.find?_cons_of_pos _ (by simp)]
    rfl
  · intro tb' m id c hm hall hsome
    constructor
    · simp only [pruneConnsSince, getConn, Option.map_eq_none']
      apply List.find?_eq_none.mpr
      intro e he hpe
      have hmem := (List.mem_filter.mp he).1
      have hpred := (List.mem_filter.mp he).2
      have hid : e.1 = id := by simpa using hpe
      have hlast : e.2.last = 0 := hall e hmem hid
      simp only [decide_not] at hpred
      rw [hlast] at hpred
      simp at hpred
      omega
    · simp only [pruneConnsSince, List.mem_append]
      right
      simp only [getConn] at hsome
      rcases hf : List.find? (fun e => decide (e.1 = id)) tb'.conns with _ | e
      · rw [hf] at hsome
        simp at hsome
      · have hmem := List.mem_of_find?_eq_some hf
        have hpe := List.find?_some hf
        have hid : e.1 = id := by simpa using hpe
        have hlast : e.2.last = 0 := hall e hmem hid
        apply List.mem_map.mpr
        refine ⟨e, ?_, hid⟩
        apply List.mem_filter.mpr
        refine ⟨hmem, ?_⟩
        rw [hlast]
        simpa using hm

/-- Witness for C10: a fresh session in an empty table, pruned by a
sweep with marker 1. -/
theorem claim_C10_witness :
    (∃ c : Conn,
      getConn (newConn 7 ⟨[], []⟩ 0 true).1.conns (formatBase36 0) = some c
        ∧ c.last = 0 ∧ c.start = 7)
    ∧ getConn (pruneConnsSince 1
        ⟨[(strBytes "a", ⟨7, 0, 0, 0⟩)], []⟩).conns (strBytes "a") = none
    ∧ strBytes "a" ∈ (pruneConnsSince 1
        ⟨[(strBytes "a", ⟨7, 0, 0, 0⟩)], []⟩).closed := by
  have h := claim_C10 7 ⟨[], []⟩ 0 (by decide)
  refine ⟨h.1, ?_, ?_⟩
  · exact (h.2 ⟨[(strBytes "a", ⟨7, 0, 0, 0⟩)], []⟩ 1 (strBytes "a")
      ⟨7, 0, 0, 0⟩ (by decide) (by decide) (by decide)).1
  · exact (h.2 ⟨[(strBytes "a", ⟨7, 0, 0, 0⟩)], []⟩ 1 (strBytes "a")
      ⟨7, 0, 0, 0⟩ (by decide) (by decide) (by decide)).2

/-- C5: a new-connection request whose (well-formed, in-window)
timestamp string is already in the seen-timestamp cache returns "no
reply, no error" with nothing dialed and no state change — and the
dispatcher turns a no-reply handler result into NXDOMAIN; of two
identical handshake requests, the first returns a fresh session id and
creates a session, the second returns no reply with no session
created. -/
theorem claim_C5 (now : Nat) (seenTS : List Bytes) (tb : Table)
    (nextID : Nat) (l : Bytes) (ts : Int) (dialOk : Bool)
    (hparse : parseDec l = some ts)
    (hwin : (ts - (now : Int)).natAbs ≤ maxTSOff) :
    (l ∈ seenTS →
      handleNewConn now seenTS tb nextID l dialOk
        = ⟨seenTS, tb, nextID, .noReply, false⟩)
    ∧ (∀ (qn : Bytes) (labels : List Bytes) cache consulted,
        (dispatchHandle qn labels cache (fun _ => HRes.noReply) consulted).out
          = .nxdomain)
    ∧ (l ∉ seenTS →
        (handleNewConn now seenTS tb nextID l true).res
            = .reply (formatBase36 nextID)
        ∧ (handleNewConn now seenTS tb nextID l true).dialed = true
        ∧ (handleNewConn now seenTS tb nextID l true).tb.conns
            = tb.conns ++ [(formatBase36 nextID,
                { start := now, last := 0, nextFwd := 0, nextRev := 0 })]
        ∧ (handleNewConn now
             (handleNewConn now seenTS tb nextID l true).seenTS
             (handleNewConn now seenTS tb nextID l true).tb
             (handleNewConn now seenTS tb nextID l true).nextID l dialOk
           = ⟨(handleNewConn now seenTS tb nextID l true).seenTS,
              (handleNewConn now seenTS tb nextID l true).tb,
              (handleNewConn now seenTS tb nextID l true).nextID,
              .noReply, false⟩)) := by
  have hnwin : ¬ maxTSOff < (ts - (now : Int)).natAbs := Nat.not_lt.mpr hwin
  refine ⟨fun hseen => ?_, fun qn labels cache consulted => rfl, fun hseen => ?_⟩
  · simp only [handleNewConn, hparse, if_neg hnwin, if_pos hseen]
  · have h1 : handleNewConn now seenTS tb nextID l true
        = ⟨l :: seenTS,
           { tb with conns := tb.conns ++ [(formatBase36 nextID,
               { start := now, last := 0, nextFwd := 0, nextRev := 0 })] },
           nextID + 1, .reply (formatBase36 nextID), true⟩ := by
      simp only [handleNewConn, hparse, if_neg hnwin, if_neg hseen, newConn,
        if_true]
    rw [h1]
    refine ⟨rfl, rfl, rfl, ?_⟩
    simp only [handleNewConn, hparse, if_neg hnwin,
      if_pos (List.mem_cons_self l seenTS)]

/-- Witness for C5: the scenario-3 replay with timestamp
`1700000000000000000` against an empty cache and table. -/
theorem claim_C5_witness :
    (handleNewConn 1700000000000000000 []
        ⟨[], []⟩ 3 (strBytes "1700000000000000000") true).res
      = .reply (formatBase36 3)
    ∧ (handleNewConn 1700000000000000000
        (handleNewConn 1700000000000000000 [] ⟨[], []⟩ 3
          (strBytes "1700000000000000000") true).seenTS
        (handleNewConn 1700000000000000000 [] ⟨[], []⟩ 3
          (strBytes "1700000000000000000") true).tb
        (handleNewConn 1700000000000000000 [] ⟨[], []⟩ 3
          (strBytes "1700000000000000000") true).nextID
        (strBytes "1700000000000000000") true
      = ⟨(handleNewConn 1700000000000000000 [] ⟨[], []⟩ 3
            (strBytes "1700000000000000000") true).seenTS,
         (handleNewConn 1700000000000000000 [] ⟨[], []⟩ 3
            (strBytes "1700000000000000000") true).tb,
         (handleNewConn 1700000000000000000 [] ⟨[], []⟩ 3
            (strBytes "1700000000000000000") true).nextID,
         .noReply, false⟩) := by
  have h := claim_C5 1700000000000000000 [] ⟨[], []⟩ 3
    (strBytes "1700000000000000000") 1700000000000000000 true
    (by decide) (by decide)
  exact ⟨(h.2.2 (by decide)).1, (h.2.2 (by decide)).2.2.2⟩

/-- C3 counterexample: `strings.HasSuffix` is byte-exact and
`handlePacket` lowercases only after stripping the suffix, so a
question name whose suffix matches the parent domain only up to letter
case is silently dropped, not accepted: `foo.EXAMPLE.COM.` against
parent `.example.com.` is dropped even though its lowercasing does end
with the parent domain. -/
theorem claim_C3_counterexample :
    hasSuffixGo (strBytes "foo.EXAMPLE.COM.") (strBytes ".example.com.")
        = false
    ∧ hasSuffixGo (toLowerGo (strBytes "foo.EXAMPLE.COM."))
        (strBytes ".example.com.") = true
    ∧ (handlePacketName (strBytes ".example.com.")
        (strBytes "foo.EXAMPLE.COM.") [] (fun _ => .reply [])).out
        = .dropped := by
  refine ⟨by decide, by decide, ?_⟩
  decide

/-- C3 amended: the dispatcher accepts a question (sends some reply)
whenever its name ends with the configured parent domain suffix
compared byte-for-byte (and the stripped name has at most three
labels), and silently drops any question whose name does not end with
the suffix byte-for-byte; lowercasing is applied only after the suffix
is stripped, so a query whose suffix matches the parent domain only up
to letter case is dropped. -/
theorem claim_C3 (dn qn : Bytes) (cache : List (Bytes × Bytes))
    (handle : List Bytes → HRes) :
    (hasSuffixGo qn dn = false →
      handlePacketName dn qn cache handle = ⟨.dropped, cache, false, false⟩)
    ∧ (hasSuffixGo qn dn = true →
        (splitOnDot (toLowerGo (trimSuffixGo qn dn))).length ≤ 3 →
        (handlePacketName dn qn cache handle).out ≠ .dropped) := by
  constructor
  · intro h
    simp [handlePacketName, h]
  · intro h hlen
    have hne := splitOnDot_ne_nil (toLowerGo (trimSuffixGo qn dn))
    have hlen0 : ¬ (splitOnDot (toLowerGo (trimSuffixGo qn dn))).length = 0 := by
      intro h0
      exact hne (List.eq_nil_of_length_eq_zero h0)
    simp only [handlePacketName]
    rw [if_neg (by simp [h]), if_neg hlen0, if_neg (by omega)]
    by_cases h2 : (splitOnDot (toLowerGo (trimSuffixGo qn dn))).length = 2
    · rw [if_pos h2]
      cases hc : cacheGet cache (toLowerGo (trimSuffixGo qn dn)) with
      | some ca => simp
      | none =>
          cases hh : handle (splitOnDot (toLowerGo (trimSuffixGo qn dn))) <;>
            simp [dispatchHandle, hh] <;> split <;> simp
    · rw [if_neg h2]
      cases hh : handle (splitOnDot (toLowerGo (trimSuffixGo qn dn))) <;>
        simp [dispatchHandle, hh] <;> split <;> simp

/-- Witness for C3 amended, at a byte-exact match and a mismatched
name. -/
theorem claim_C3_witness :
    handlePacketName (strBytes ".example.com.") (strBytes "zzz.org.")
        [] (fun _ => HRes.reply []) = ⟨.dropped, [], false, false⟩
    ∧ (handlePacketName (strBytes ".example.com.")
        (strBytes "foo.example.com.") [] (fun _ => HRes.reply [])).out
        ≠ .dropped :=
  ⟨(claim_C3 (strBytes ".example.com.") (strBytes "zzz.org.") []
      (fun _ => HRes.reply [])).1 (by decide),
   (claim_C3 (strBytes ".example.com.") (strBytes "foo.example.com.") []
      (fun _ => HRes.reply [])).2 (by decide) (by decide)⟩

/-- C6: the answer cache is consulted and populated only for two-label
queries: a one- or three-label query neither looks up nor inserts a
cache entry (even if the stripped, lowercased name coincides with a
cached key — the statement holds for every cache); a two-label hit
returns the cached reply with no handler invocation; a two-label miss
whose handler produces a reply inserts the base64-encoded reply under
the stripped-and-lowercased name. -/
theorem claim_C6 (dn qn : Bytes) (cache : List (Bytes × Bytes))
    (handle : List Bytes → HRes)
    (hsuf : hasSuffixGo qn dn = true) :
    ((splitOnDot (toLowerGo (trimSuffixGo qn dn))).length = 1
        ∨ (splitOnDot (toLowerGo (trimSuffixGo qn dn))).length = 3 →
      (handlePacketName dn qn cache handle).cacheConsulted = false
      ∧ (handlePacketName dn qn cache handle).cache = cache)
    ∧ ((splitOnDot (toLowerGo (trimSuffixGo qn dn))).length = 2 →
        (handlePacketName dn qn cache handle).cacheConsulted = true
        ∧ (∀ ca, cacheGet cache (toLowerGo (trimSuffixGo qn dn)) = some ca →
            (handlePacketName dn qn cache handle).out = .answer ca
            ∧ (handlePacketName dn qn cache handle).handlerCalled = false
            ∧ (handlePacketName dn qn cache handle).cache = cache)
        ∧ (cacheGet cache (toLowerGo (trimSuffixGo qn dn)) = none →
            ∀ rb, handle (splitOnDot (toLowerGo (trimSuffixGo qn dn)))
                = .reply rb →
              (handlePacketName dn qn cache handle).cache
                = (toLowerGo (trimSuffixGo qn dn), base64Encode rb) :: cache
              ∧ (handlePacketName dn qn cache handle).out
                = .answer (base64Encode rb))) := by
  have hne := splitOnDot_ne_nil (toLowerGo (trimSuffixGo qn dn))
  have hlen0 : ¬ (splitOnDot (toLowerGo (trimSuffixGo qn dn))).length = 0 :=
    fun h0 => hne (List.eq_nil_of_length_eq_zero h0)
  constructor
  · intro h13
    have h2 : ¬ (splitOnDot (toLowerGo (trimSuffixGo qn dn))).length = 2 := by
      omega
    have hEq : handlePacketName dn qn cache handle
        = dispatchHandle (toLowerGo (trimSuffixGo qn dn))
            (splitOnDot (toLowerGo (trimSuffixGo qn dn))) cache handle false := by
      simp only [handlePacketName]
      rw [if_neg (by simp [hsuf]), if_neg hlen0, if_neg (by omega), if_neg h2]
    rw [hEq]
    cases hh : handle (splitOnDot (toLowerGo (trimSuffixGo qn dn))) <;>
      simp [dispatchHandle, hh, h2]
  · intro h2
    cases hc : cacheGet cache (toLowerGo (trimSuffixGo qn dn)) with
    | some ca =>
        have hEq : handlePacketName dn qn cache handle
            = ⟨.answer ca, cache, false, true⟩ := by
          simp only [handlePacketName]
          rw [if_neg (by simp [hsuf]), if_neg hlen0, if_neg (by omega),
            if_pos h2, hc]
        rw [hEq]
        refine ⟨rfl, ?_, ?_⟩
        · intro ca' hca'
          cases hca'
          exact ⟨rfl, rfl, rfl⟩
        · intro hnone
          exact Option.noConfusion hnone
    | none =>
        have hEq : handlePacketName dn qn cache handle
            = dispatchHandle (toLowerGo (trimSuffixGo qn dn))
                (splitOnDot (toLowerGo (trimSuffixGo qn dn))) cache handle
                true := by
          simp only [handlePacketName]
          rw [if_neg (by simp [hsuf]), if_neg hlen0, if_neg (by omega),
            if_pos h2, hc]
        rw [hEq]
        refine ⟨?_, ?_, ?_⟩
        · cases hh : handle (splitOnDot (toLowerGo (trimSuffixGo qn dn))) <;>
            simp [dispatchHandle, hh, h2]
        · intro ca' hca'
          exact Option.noConfusion hca'
        · intro _ rb hh
          simp [dispatchHandle, hh, h2]

/-- Witness for C6 at concrete one-, two- and three-label names. -/
theorem claim_C6_witness :
    ((handlePacketName (strBytes ".d.") (strBytes "x.y.z.d.")
        [(strBytes "x.y.z", strBytes "c")] (fun _ => HRes.noReply)).cache
      = [(strBytes "x.y.z", strBytes "c")])
    ∧ ((handlePacketName (strBytes ".d.") (strBytes "x.y.d.")
        [(strBytes "x.y", strBytes "c")] (fun _ => HRes.noReply)).out
      = .answer (strBytes "c")) := by
  have h3 := claim_C6 (strBytes ".d.") (strBytes "x.y.z.d.")
    [(strBytes "x.y.z", strBytes "c")] (fun _ => HRes.noReply) (by decide)
  have h2 := claim_C6 (strBytes ".d.") (strBytes "x.y.d.")
    [(strBytes "x.y", strBytes "c")] (fun _ => HRes.noReply) (by decide)
  refine ⟨(h3.1 (by decide)).2, ?_⟩
  exact ((h2.2 (by decide)).2.1 (strBytes "c") (by decide)).1

/-- C1 counterexample: in `handleReverse`, an upstream read returning
zero bytes and a non-timeout error does NOT delete the session: at a
concrete session table, the handler surfaces an error but the session
is still in the table (with `nextRev` advanced) and its upstream is
not closed. -/
theorem claim_C1_counterexample :
    (handleReverse 200 ⟨[(strBytes "a", ⟨100, 0, 0, 0⟩)], []⟩
        (strBytes "0") (strBytes "a") (.read (.fail []))).2.1 = .err
    ∧ getConn (handleReverse 200 ⟨[(strBytes "a", ⟨100, 0, 0, 0⟩)], []⟩
        (strBytes "0") (strBytes "a") (.read (.fail []))).1.conns
        (strBytes "a") = some ⟨100, 200, 0, 1⟩
    ∧ (handleReverse 200 ⟨[(strBytes "a", ⟨100, 0, 0, 0⟩)], []⟩
        (strBytes "0") (strBytes "a") (.read (.fail []))).1.closed = [] := by
  refine ⟨by decide, by decide, by decide⟩

/-- C1 amended: when the upstream read returns zero bytes and an error
that is not a deadline-timeout, `handleReverse` surfaces an error (so
the dispatcher replies NXDOMAIN) but does NOT delete the session: the
session stays in the table with `next_rev` advanced and `last`
updated, and its upstream is not closed.  (`handleReverse` deletes the
session only when `SetReadDeadline` itself fails.) -/
theorem claim_C1 (now : Nat) (tb : Table) (ctr id : Bytes) (cn : Nat)
    (c : Conn) (hp : parseBase36 ctr = some cn)
    (hc : getConn tb.conns id = some c) (hg : cn = c.nextRev) :
    (handleReverse now tb ctr id (.read (.fail []))).2.1 = .err
    ∧ (handleReverse now tb ctr id (.read (.fail []))).1.conns
        = setConn tb.conns id { c with nextRev := c.nextRev + 1, last := now }
    ∧ (handleReverse now tb ctr id (.read (.fail []))).1.closed = tb.closed
    ∧ getConn (handleReverse now tb ctr id (.read (.fail []))).1.conns id
        = some { c with nextRev := c.nextRev + 1, last := now }
    ∧ (∀ (tb' : Table) (ctr' id' : Bytes),
        handleReverse now tb' ctr' id' .deadlineErr
          = (tb', .err, [])
        ∨ (handleReverse now tb' ctr' id' .deadlineErr).2.1 = .noReply
        ∨ getConn (handleReverse now tb' ctr' id' .deadlineErr).1.conns id'
          = none)
    ∧ (∀ (qn : Bytes) (labels : List Bytes) cache consulted,
        (dispatchHandle qn labels cache (fun _ => HRes.err) consulted).out
          = .nxdomain) := by
  have hEq : handleReverse now tb ctr id (.read (.fail []))
      = (Table.mk (setConn tb.conns id
            { c with nextRev := c.nextRev + 1, last := now }) tb.closed, .err,
         [.setDeadline, .updLast, .ioRead id cn, .updLast]) := by
    simp only [handleReverse, hp, hc]
    rw [if_neg (not_not_intro hg)]
    simp
  refine ⟨by rw [hEq], by rw [hEq], by rw [hEq], ?_, ?_, ?_⟩
  · rw [hEq]
    exact getConn_setConn_self tb.conns id c _ hc
  · intro tb' ctr' id'
    simp only [handleReverse]
    match hp' : parseBase36 ctr' with
    | none => exact Or.inl rfl
    | some cn' =>
        match hc' : getConn tb'.conns id' with
        | none => exact Or.inl rfl
        | some c' =>
            dsimp only
            by_cases hg' : cn' ≠ c'.nextRev
            · rw [if_pos hg']
              exact Or.inr (Or.inl rfl)
            · rw [if_neg hg']
              exact Or.inr (Or.inr (getConn_deleteConn_self _ id'))
  · intro qn labels cache consulted
    rfl

/-- Witness for C1 amended at the counterexample's concrete input. -/
theorem claim_C1_witness :
    (handleReverse 300 ⟨[(strBytes "b", ⟨100, 0, 0, 0⟩)], []⟩
        (strBytes "0") (strBytes "b") (.read (.fail []))).2.1 = .err
    ∧ getConn (handleReverse 300 ⟨[(strBytes "b", ⟨100, 0, 0, 0⟩)], []⟩
        (strBytes "0") (strBytes "b") (.read (.fail []))).1.conns
        (strBytes "b") = some ⟨100, 300, 0, 1⟩ := by
  have h := claim_C1 300 ⟨[(strBytes "b", ⟨100, 0, 0, 0⟩)], []⟩
    (strBytes "0") (strBytes "b") 0 ⟨100, 0, 0, 0⟩
    (by decide) (by decide) (by decide)
  exact ⟨h.1, h.2.2.2.1⟩

/-- C4 counterexample: a forward request whose upstream write fails
does NOT update `last_activity` immediately after the I/O attempt —
the handler's trace is update, write, delete, with no `updateLast`
after the write. -/
theorem claim_C4_counterexample :
    (handleForward 200 ⟨[(strBytes "a", ⟨100, 0, 0, 0⟩)], []⟩
        (strBytes "0") (strBytes "aa") (strBytes "a") .errW).2.2
      = [.updLast, .ioWrite (strBytes "a") 0 [0], .delConn (strBytes "a")]
    ∧ Ev.updLast ∉ ((handleForward 200 ⟨[(strBytes "a", ⟨100, 0, 0, 0⟩)], []⟩
        (strBytes "0") (strBytes "aa") (strBytes "a") .errW).2.2).drop 2 := by
  refine ⟨by decide, by decide⟩

/-- C4 amended: `last_activity` is updated immediately before and
immediately after the upstream read in `handleReverse`, for every read
outcome including errors; in `handleForward` it is updated immediately
before the upstream write always, but immediately after it only when
the write succeeds — on a write error the session is deleted without a
post-write update. -/
theorem claim_C4 (now : Nat) (tb : Table) :
    (∀ (ctr id : Bytes) (cn : Nat) (c : Conn) (o : ReadOutcome),
      parseBase36 ctr = some cn → getConn tb.conns id = some c →
      cn = c.nextRev →
      (handleReverse now tb ctr id (.read o)).2.2
        = [.setDeadline, .updLast, .ioRead id cn, .updLast])
    ∧ (∀ (ctr payload id : Bytes) (cn : Nat) (b : Bytes) (c : Conn),
        parseBase36 ctr = some cn →
        base32Decode (toUpperGo payload) = some b →
        getConn tb.conns id = some c → cn = c.nextFwd →
        (handleForward now tb ctr payload id .ok).2.2
          = [.updLast, .ioWrite id cn b, .updLast]
        ∧ (handleForward now tb ctr payload id .errW).2.2
          = [.updLast, .ioWrite id cn b, .delConn id]) := by
  constructor
  · intro ctr id cn c o hp hc hg
    simp only [handleReverse, hp, hc]
    rw [if_neg (not_not_intro hg)]
    cases o with
    | ok b => by_cases hb : b ≠ [] <;> simp [hb]
    | timeout b => by_cases hb : b ≠ [] <;> simp [hb]
    | fail b => by_cases hb : b ≠ [] <;> simp [hb]
  · intro ctr payload id cn b c hp hd hc hg
    constructor <;>
      (simp only [handleForward, hp, hd, hc]
       rw [if_neg (not_not_intro hg)])

/-- Witness for C4 amended at concrete reverse and forward requests. -/
theorem claim_C4_witness :
    (handleReverse 200 ⟨[(strBytes "a", ⟨100, 0, 0, 0⟩)], []⟩
        (strBytes "0") (strBytes "a") (.read (.fail []))).2.2
      = [.setDeadline, .updLast, .ioRead (strBytes "a") 0, .updLast]
    ∧ (handleForward 200 ⟨[(strBytes "a", ⟨100, 0, 0, 0⟩)], []⟩
        (strBytes "0") (strBytes "aa") (strBytes "a") .ok).2.2
      = [.updLast, .ioWrite (strBytes "a") 0 [0], .updLast] := by
  have h := claim_C4 200 ⟨[(strBytes "a", ⟨100, 0, 0, 0⟩)], []⟩
  exact ⟨h.1 (strBytes "0") (strBytes "a") 0 ⟨100, 0, 0, 0⟩ (.fail [])
      (by decide) (by decide) (by decide),
    (h.2 (strBytes "0") (strBytes "aa") (strBytes "a") 0 [0] ⟨100, 0, 0, 0⟩
      (by decide) (by decide) (by decide) (by decide)).1⟩

/-! ## Request streams and the counter-ordering invariant (C2)

The per-session `nextFwdL`/`nextRevL` mutexes serialize the forward
(resp. reverse) requests of a session, and the table lock serializes
table updates, so a run of the server on a session is a sequence of
handler invocations; the oracle outcomes and times ride along in the
request. -/

/-- One forward or reverse request with its upstream-I/O oracle outcome
and wall-clock time. -/
inductive Req where
  | fwd (ctr payload id : Bytes) (w : WOutcome) (now : Nat)
  | rev (ctr id : Bytes) (io : RevIO) (now : Nat)

/-- Dispatch one request to its handler. -/
def stepReq (tb : Table) : Req → Table × HRes × List Ev
  | .fwd ctr payload id w now => handleForward now tb ctr payload id w
  | .rev ctr id io now => handleReverse now tb ctr id io

/-- Process a request sequence, accumulating the event trace. -/
def runReqs (tb : Table) : List Req → Table × List Ev
  | [] => (tb, [])
  | r :: rs =>
      let s := stepReq tb r
      let t := runReqs s.1 rs
      (t.1, s.2.2 ++ t.2)

/-- The counters of the upstream write events for session `id`, in
order. -/
def fwdWrites (evs : List Ev) (id : Bytes) : List Nat :=
  evs.filterMap fun e =>
    match e with
    | .ioWrite wid cn _ => if wid = id then some cn else none
    | _ => none

/-- The counters of the upstream read events for session `id`, in
order. -/
def revReads (evs : List Ev) (id : Bytes) : List Nat :=
  evs.filterMap fun e =>
    match e with
    | .ioRead rid cn => if rid = id then some cn else none
    | _ => none

/-- Session `id`'s `nextFwd` counter, when the session is in the
table. -/
def nf (tb : Table) (id : Bytes) : Option Nat :=
  (getConn tb.conns id).map (·.nextFwd)

/-- Session `id`'s `nextRev` counter, when the session is in the
table. -/
def nr (tb : Table) (id : Bytes) : Option Nat :=
  (getConn tb.conns id).map (·.nextRev)

theorem fwdWrites_append (l1 l2 : List Ev) (id : Bytes) :
    fwdWrites (l1 ++ l2) id = fwdWrites l1 id ++ fwdWrites l2 id := by
  simp [fwdWrites, List.filterMap_append]

theorem revReads_append (l1 l2 : List Ev) (id : Bytes) :
    revReads (l1 ++ l2) id = revReads l1 id ++ revReads l2 id := by
  simp [revReads, List.filterMap_append]

/-- One step either produces no upstream write for session `id`
(leaving its `nextFwd` alone, unless the step deleted the session), or
produces exactly one write carrying the session's current `nextFwd`
and advances it (unless the step then deleted the session). -/
theorem stepReq_fwd_char (tb : Table) (r : Req) (id : Bytes) :
    (fwdWrites (stepReq tb r).2.2 id = []
      ∧ (nf (stepReq tb r).1 id = nf tb id ∨ nf (stepReq tb r).1 id = none))
    ∨ (∃ a, nf tb id = some a
        ∧ fwdWrites (stepReq tb r).2.2 id = [a]
        ∧ (nf (stepReq tb r).1 id = some (a + 1)
            ∨ nf (stepReq tb r).1 id = none)) := by
  cases r with
  | fwd ctr payload id' w now =>
      simp only [stepReq, handleForward]
      match hp : parseBase36 ctr with
      | none => exact Or.inl ⟨rfl, Or.inl rfl⟩
      | some cn =>
        match hd : base32Decode (toUpperGo payload) with
        | none => exact Or.inl ⟨rfl, Or.inl rfl⟩
        | some b =>
          match hc : getConn tb.conns id' with
          | none => exact Or.inl ⟨rfl, Or.inl rfl⟩
          | some c =>
            dsimp only
            by_cases hgate : cn ≠ c.nextFwd
            · rw [if_pos hgate]
              exact Or.inl ⟨rfl, Or.inl rfl⟩
            · rw [if_neg hgate]
              push_neg at hgate
              by_cases hid : id' = id
              · subst hid
                cases w with
                | ok =>
                    refine Or.inr ⟨cn, ?_, ?_, Or.inl ?_⟩
                    · simp [nf, hc, hgate]
                    · simp [fwdWrites]
                    · simp only [nf]
                      rw [getConn_setConn_self tb.conns id' c _ hc]
                      simp [hgate]
                | errW =>
                    refine Or.inr ⟨cn, ?_, ?_, Or.inr ?_⟩
                    · simp [nf, hc, hgate]
                    · simp [fwdWrites]
                    · simp only [nf]
                      rw [getConn_deleteConn_self]
                      rfl
              · cases w with
                | ok =>
                    refine Or.inl ⟨?_, Or.inl ?_⟩
                    · simp [fwdWrites, hid]
                    · simp only [nf]
                      rw [getConn_setConn_ne tb.conns id id' _
                        fun h => hid h.symm]
                | errW =>
                    refine Or.inl ⟨?_, Or.inl ?_⟩
                    · simp [fwdWrites, hid]
                    · simp only [nf]
                      rw [getConn_deleteConn_ne _ id id' fun h => hid h.symm]
                      rw [getConn_setConn_ne tb.conns id id' _
                        fun h => hid h.symm]
  | rev ctr id' io now =>
      simp only [stepReq, handleReverse]
      match hp : parseBase36 ctr with
      | none => exact Or.inl ⟨rfl, Or.inl rfl⟩
      | some cn =>
        match hc : getConn tb.conns id' with
        | none => exact Or.inl ⟨rfl, Or.inl rfl⟩
        | some c =>
          dsimp only
          by_cases hgate : cn ≠ c.nextRev
          · rw [if_pos hgate]
            exact Or.inl ⟨rfl, Or.inl rfl⟩
          · rw [if_neg hgate]
            cases io with
            | deadlineErr =>
                refine Or.inl ⟨rfl, ?_⟩
                by_cases hid : id' = id
                · subst hid
                  refine Or.inr ?_
                  simp only [nf]
                  rw [getConn_deleteConn_self]
                  rfl
                · refine Or.inl ?_
                  simp only [nf]
                  rw [getConn_deleteConn_ne _ id id' fun h => hid h.symm]
                  rw [getConn_setConn_ne tb.conns id id' _ fun h => hid h.symm]
            | read o =>
                have hleft : fwdWrites
                    [Ev.setDeadline, Ev.updLast, Ev.ioRead id' cn, Ev.updLast]
                    id = [] := by simp [fwdWrites]
                have hnf : nf (Table.mk (setConn tb.conns id'
                      { c with nextRev := c.nextRev + 1, last := now })
                      tb.closed) id = nf tb id := by
                  by_cases hid : id' = id
                  · subst hid
                    simp only [nf]
                    rw [getConn_setConn_self tb.conns id' c _ hc]
                    simp [hc]
                  · simp only [nf]
                    rw [getConn_setConn_ne tb.conns id id' _
                      fun h => hid h.symm]
                cases o with
                | ok b =>
                    dsimp only
                    by_cases hb : b ≠ []
                    · rw [if_pos hb]
                      exact Or.inl ⟨hleft, Or.inl hnf⟩
                    · rw [if_neg hb]
                      exact Or.inl ⟨hleft, Or.inl hnf⟩
                | timeout b =>
                    dsimp only
                    by_cases hb : b ≠ []
                    · rw [if_pos hb]
                      exact Or.inl ⟨hleft, Or.inl hnf⟩
                    · rw [if_neg hb]
                      exact Or.inl ⟨hleft, Or.inl hnf⟩
                | fail b =>
                    dsimp only
                    by_cases hb : b ≠ []
                    · rw [if_pos hb]
                      exact Or.inl ⟨hleft, Or.inl hnf⟩
                    · rw [if_neg hb]
                      exact Or.inl ⟨hleft, Or.inl hnf⟩

/-- Mirror of `stepReq_fwd_char` for the reverse direction: one step
either produces no upstream read for session `id` (leaving `nextRev`
alone unless the step deleted the session), or produces exactly one
read carrying the current `nextRev` and advances it. -/
theorem stepReq_rev_char (tb : Table) (r : Req) (id : Bytes) :
    (revReads (stepReq tb r).2.2 id = []
      ∧ (nr (stepReq tb r).1 id = nr tb id ∨ nr (stepReq tb r).1 id = none))
    ∨ (∃ a, nr tb id = some a
        ∧ revReads (stepReq tb r).2.2 id = [a]
        ∧ (nr (stepReq tb r).1 id = some (a + 1)
            ∨ nr (stepReq tb r).1 id = none)) := by
  cases r with
  | fwd ctr payload id' w now =>
      simp only [stepReq, handleForward]
      match hp : parseBase36 ctr with
      | none => exact Or.inl ⟨rfl, Or.inl rfl⟩
      | some cn =>
        match hd : base32Decode (toUpperGo payload) with
        | none => exact Or.inl ⟨rfl, Or.inl rfl⟩
        | some b =>
          match hc : getConn tb.conns id' with
          | none => exact Or.inl ⟨rfl, Or.inl rfl⟩
          | some c =>
            dsimp only
            by_cases hgate : cn ≠ c.nextFwd
            · rw [if_pos hgate]
              exact Or.inl ⟨rfl, Or.inl rfl⟩
            · rw [if_neg hgate]
              cases w with
              | ok =>
                  refine Or.inl ⟨by simp [revReads], Or.inl ?_⟩
                  by_cases hid : id' = id
                  · subst hid
                    simp only [nr]
                    rw [getConn_setConn_self tb.conns id' c _ hc]
                    simp [hc]
                  · simp only [nr]
                    rw [getConn_setConn_ne tb.conns id id' _
                      fun h => hid h.symm]
              | errW =>
                  refine Or.inl ⟨by simp [revReads], ?_⟩
                  by_cases hid : id' = id
                  · subst hid
                    refine Or.inr ?_
                    simp only [nr]
                    rw [getConn_deleteConn_self]
                    rfl
                  · refine Or.inl ?_
                    simp only [nr]
                    rw [getConn_deleteConn_ne _ id id' fun h => hid h.symm]
                    rw [getConn_setConn_ne tb.conns id id' _
                      fun h => hid h.symm]
  | rev ctr id' io now =>
      simp only [stepReq, handleReverse]
      match hp : parseBase36 ctr with
      | none => exact Or.inl ⟨rfl, Or.inl rfl⟩
      | some cn =>
        match hc : getConn tb.conns id' with
        | none => exact Or.inl ⟨rfl, Or.inl rfl⟩
        | some c =>
          dsimp only
          by_cases hgate : cn ≠ c.nextRev
          · rw [if_pos hgate]
            exact Or.inl ⟨rfl, Or.inl rfl⟩
          · rw [if_neg hgate]
            push_neg at hgate
            cases io with
            | deadlineErr =>
                refine Or.inl ⟨rfl, ?_⟩
                by_cases hid : id' = id
                · subst hid
                  refine Or.inr ?_
                  simp only [nr]
                  rw [getConn_deleteConn_self]
                  rfl
                · refine Or.inl ?_
                  simp only [nr]
                  rw [getConn_deleteConn_ne _ id id' fun h => hid h.symm]
                  rw [getConn_setConn_ne tb.conns id id' _ fun h => hid h.symm]
            | read o =>
                by_cases hid : id' = id
                · subst hid
                  have hreads : revReads
                      [Ev.setDeadline, Ev.updLast, Ev.ioRead id' cn, Ev.updLast]
                      id' = [cn] := by simp [revReads]
                  have hnr : nr (Table.mk (setConn tb.conns id'
                        { c with nextRev := c.nextRev + 1, last := now })
                        tb.closed) id' = some (cn + 1) := by
                    simp only [nr]
                    rw [getConn_setConn_self tb.conns id' c _ hc]
                    simp [hgate]
                  have hcur : nr tb id' = some cn := by
                    simp [nr, hc, hgate]
                  cases o with
                  | ok b =>
                      dsimp only
                      by_cases hb : b ≠ []
                      · rw [if_pos hb]
                        exact Or.inr ⟨cn, hcur, hreads, Or.inl hnr⟩
                      · rw [if_neg hb]
                        exact Or.inr ⟨cn, hcur, hreads, Or.inl hnr⟩
                  | timeout b =>
                      dsimp only
                      by_cases hb : b ≠ []
                      · rw [if_pos hb]
                        exact Or.inr ⟨cn, hcur, hreads, Or.inl hnr⟩
                      · rw [if_neg hb]
                        exact Or.inr ⟨cn, hcur, hreads, Or.inl hnr⟩
                  | fail b =>
                      dsimp only
                      by_cases hb : b ≠ []
                      · rw [if_pos hb]
                        exact Or.inr ⟨cn, hcur, hreads, Or.inl hnr⟩
                      · rw [if_neg hb]
                        exact Or.inr ⟨cn, hcur, hreads, Or.inl hnr⟩
                · have hreads : revReads
                      [Ev.setDeadline, Ev.updLast, Ev.ioRead id' cn, Ev.updLast]
                      id = [] := by simp [revReads, hid]
                  have hnr : nr (Table.mk (setConn tb.conns id'
                        { c with nextRev := c.nextRev + 1, last := now })
                        tb.closed) id = nr tb id := by
                    simp only [nr]
                    rw [getConn_setConn_ne tb.conns id id' _ fun h => hid h.symm]
                  cases o with
                  | ok b =>
                      dsimp only
                      by_cases hb : b ≠ []
                      · rw [if_pos hb]
                        exact Or.inl ⟨hreads, Or.inl hnr⟩
                      · rw [if_neg hb]
                        exact Or.inl ⟨hreads, Or.inl hnr⟩
                  | timeout b =>
                      dsimp only
                      by_cases hb : b ≠ []
                      · rw [if_pos hb]
                        exact Or.inl ⟨hreads, Or.inl hnr⟩
                      · rw [if_neg hb]
                        exact Or.inl ⟨hreads, Or.inl hnr⟩
                  | fail b =>
                      dsimp only
                      by_cases hb : b ≠ []
                      · rw [if_pos hb]
                        exact Or.inl ⟨hreads, Or.inl hnr⟩
                      · rw [if_neg hb]
                        exact Or.inl ⟨hreads, Or.inl hnr⟩

/-- Over any request run, the forward-write counters of a session form
a consecutive run starting at its current `nextFwd` (and a session that
is not in the table gets no writes at all). -/
theorem runReqs_fwd_range (id : Bytes) : ∀ (reqs : List Req) (tb : Table),
    (nf tb id = none → fwdWrites (runReqs tb reqs).2 id = [])
    ∧ (∀ a, nf tb id = some a →
        ∃ m, fwdWrites (runReqs tb reqs).2 id = List.range' a m) := by
  intro reqs
  induction reqs with
  | nil =>
      intro tb
      exact ⟨fun _ => rfl, fun a _ => ⟨0, rfl⟩⟩
  | cons r rs ih =>
      intro tb
      have hstep := stepReq_fwd_char tb r id
      have hrun : (runReqs tb (r :: rs)).2
          = (stepReq tb r).2.2 ++ (runReqs (stepReq tb r).1 rs).2 := rfl
      constructor
      · intro hnone
        rcases hstep with ⟨hevs, hkeep⟩ | ⟨a, ha, _⟩
        · have hnone' : nf (stepReq tb r).1 id = none := by
            rcases hkeep with h | h
            · rw [h, hnone]
            · exact h
          rw [hrun, fwdWrites_append, hevs, (ih _).1 hnone']
          rfl
        · rw [hnone] at ha
          exact Option.noConfusion ha
      · intro a ha
        rcases hstep with ⟨hevs, hkeep | hkeep⟩ | ⟨a', ha', hevs, hkeep | hkeep⟩
        · obtain ⟨m, hm⟩ := (ih _).2 a (by rw [hkeep, ha])
          exact ⟨m, by rw [hrun, fwdWrites_append, hevs, hm]; rfl⟩
        · refine ⟨0, ?_⟩
          rw [hrun, fwdWrites_append, hevs, (ih _).1 hkeep]
          rfl
        · have haa : a' = a := by
            rw [ha] at ha'
            exact (Option.some.inj ha').symm
          subst haa
          obtain ⟨m, hm⟩ := (ih _).2 (a' + 1) hkeep
          refine ⟨m + 1, ?_⟩
          rw [hrun, fwdWrites_append, hevs, hm]
          rfl
        · have haa : a' = a := by
            rw [ha] at ha'
            exact (Option.some.inj ha').symm
          subst haa
          refine ⟨1, ?_⟩
          rw [hrun, fwdWrites_append, hevs, (ih _).1 hkeep]
          rfl

/-- Mirror of `runReqs_fwd_range` for reverse reads. -/
theorem runReqs_rev_range (id : Bytes) : ∀ (reqs : List Req) (tb : Table),
    (nr tb id = none → revReads (runReqs tb reqs).2 id = [])
    ∧ (∀ a, nr tb id = some a →
        ∃ m, revReads (runReqs tb reqs).2 id = List.range' a m) := by
  intro reqs
  induction reqs with
  | nil =>
      intro tb
      exact ⟨fun _ => rfl, fun a _ => ⟨0, rfl⟩⟩
  | cons r rs ih =>
      intro tb
      have hstep := stepReq_rev_char tb r id
      have hrun : (runReqs tb (r :: rs)).2
          = (stepReq tb r).2.2 ++ (runReqs (stepReq tb r).1 rs).2 := rfl
      constructor
      · intro hnone
        rcases hstep with ⟨hevs, hkeep⟩ | ⟨a, ha, _⟩
        · have hnone' : nr (stepReq tb r).1 id = none := by
            rcases hkeep with h | h
            · rw [h, hnone]
            · exact h
          rw [hrun, revReads_append, hevs, (ih _).1 hnone']
          rfl
        · rw [hnone] at ha
          exact Option.noConfusion ha
      · intro a ha
        rcases hstep with ⟨hevs, hkeep | hkeep⟩ | ⟨a', ha', hevs, hkeep | hkeep⟩
        · obtain ⟨m, hm⟩ := (ih _).2 a (by rw [hkeep, ha])
          exact ⟨m, by rw [hrun, revReads_append, hevs, hm]; rfl⟩
        · refine ⟨0, ?_⟩
          rw [hrun, revReads_append, hevs, (ih _).1 hkeep]
          rfl
        · have haa : a' = a := by
            rw [ha] at ha'
            exact (Option.some.inj ha').symm
          subst haa
          obtain ⟨m, hm⟩ := (ih _).2 (a' + 1) hkeep
          refine ⟨m + 1, ?_⟩
          rw [hrun, revReads_append, hevs, hm]
          rfl
        · have haa : a' = a := by
            rw [ha] at ha'
            exact (Option.some.inj ha').symm
          subst haa
          refine ⟨1, ?_⟩
          rw [hrun, revReads_append, hevs, (ih _).1 hkeep]
          rfl

/-- C2: starting from a session whose counters are 0 (as `newConn`
creates it), over any serialized run of forward/reverse requests the
counters of the requests that produce upstream writes are exactly
`0, 1, 2, …` in order, and independently the counters producing
upstream reads are exactly `0, 1, 2, …`; a forward request with a
duplicate or gapped counter returns "no reply, no error" with no
upstream write, no counter advance and no state change at all, and the
same holds for reverse requests and reads. -/
theorem claim_C2 (tb : Table) (id : Bytes) (c : Conn) (reqs : List Req)
    (hc : getConn tb.conns id = some c) (hf : c.nextFwd = 0)
    (hr : c.nextRev = 0) :
    (∃ m, fwdWrites (runReqs tb reqs).2 id = List.range m)
    ∧ (∃ m, revReads (runReqs tb reqs).2 id = List.range m)
    ∧ (∀ (now : Nat) (ctr payload : Bytes) (cn : Nat) (b : Bytes)
        (c' : Conn) (w : WOutcome),
        parseBase36 ctr = some cn →
        base32Decode (toUpperGo payload) = some b →
        getConn tb.conns id = some c' → cn ≠ c'.nextFwd →
        handleForward now tb ctr payload id w = (tb, .noReply, []))
    ∧ (∀ (now : Nat) (ctr : Bytes) (cn : Nat) (c' : Conn) (io : RevIO),
        parseBase36 ctr = some cn → getConn tb.conns id = some c' →
        cn ≠ c'.nextRev →
        handleReverse now tb ctr id io = (tb, .noReply, [])) := by
  refine ⟨?_, ?_, ?_, ?_⟩
  · obtain ⟨m, hm⟩ := (runReqs_fwd_range id reqs tb).2 0
      (by simp [nf, hc, hf])
    exact ⟨m, by rw [hm, List.range_eq_range']⟩
  · obtain ⟨m, hm⟩ := (runReqs_rev_range id reqs tb).2 0
      (by simp [nr, hc, hr])
    exact ⟨m, by rw [hm, List.range_eq_range']⟩
  · intro now ctr payload cn b c' w hp hd hc' hgate
    simp only [handleForward, hp, hd, hc']
    rw [if_pos hgate]
  · intro now ctr cn c' io hp hc' hgate
    simp only [handleReverse, hp, hc']
    rw [if_pos hgate]

/-- Witness for C2 at a concrete session and three-request run
(a write at counter 0, a read at counter 0, a write at counter 1). -/
theorem claim_C2_witness :
    (∃ m, fwdWrites (runReqs ⟨[(strBytes "a", ⟨100, 0, 0, 0⟩)], []⟩
        [.fwd (strBytes "0") (strBytes "aa") (strBytes "a") .ok 1,
         .rev (strBytes "0") (strBytes "a") (.read (.ok [5])) 2,
         .fwd (strBytes "1") (strBytes "aa") (strBytes "a") .ok 3]).2
        (strBytes "a") = List.range m)
    ∧ (∃ m, revReads (runReqs ⟨[(strBytes "a", ⟨100, 0, 0, 0⟩)], []⟩
        [.fwd (strBytes "0") (strBytes "aa") (strBytes "a") .ok 1,
         .rev (strBytes "0") (strBytes "a") (.read (.ok [5])) 2,
         .fwd (strBytes "1") (strBytes "aa") (strBytes "a") .ok 3]).2
        (strBytes "a") = List.range m) := by
  have h := claim_C2 ⟨[(strBytes "a", ⟨100, 0, 0, 0⟩)], []⟩ (strBytes "a")
    ⟨100, 0, 0, 0⟩
    [.fwd (strBytes "0") (strBytes "aa") (strBytes "a") .ok 1,
     .rev (strBytes "0") (strBytes "a") (.read (.ok [5])) 2,
     .fwd (strBytes "1") (strBytes "aa") (strBytes "a") .ok 3]
    (by decide) rfl rfl
  exact ⟨h.1, h.2.1⟩

end DPC
